import Mathlib

/-!
Verification of the archive subsystem of mpiutil_baseline
(`src/common/mfu_flist_archive.c`), a distributed parallel tar
archiver.  The C code is shallowly embedded: machine integers become
`Nat` (with explicit `% 2^64` where uint64 wraparound matters), the
per-rank file list becomes a list of entries, the archive layout and
the libcircle work items become pure functions of those lists, and the
sidecar index file becomes a list of bytes.
-/

set_option maxRecDepth 16384

namespace MfuArchive

/-- Return status of mfu operations (`MFU_SUCCESS` / `MFU_FAILURE`). -/
inductive Status where
  | MFU_SUCCESS
  | MFU_FAILURE
deriving DecidableEq

/-- File types distinguished by the archiver
(`MFU_TYPE_FILE`, `MFU_TYPE_DIR`, `MFU_TYPE_LINK`, anything else). -/
inductive mfu_filetype where
  | file
  | dir
  | link
  | other
deriving DecidableEq

/-- One entry of the (sorted) rank-local file list, as the layout planner
sees it: its type, its file size (`mfu_flist_file_get_size`), and the
header size probed by `encode_header` for this entry.  The header codec
is an external collaborator (libarchive), so the probed header size is
carried as data. -/
structure Entry where
  ftype : mfu_filetype
  size : ℕ
  hsize : ℕ
deriving DecidableEq

/-- Default entry used for out-of-range `getD` accesses: an untyped entry
that occupies no space in the archive. -/
def dfltEntry : Entry := ⟨mfu_filetype.other, 0, 0⟩

/-- `fsize_padded` from `mfu_flist_archive_create_libcircle` (lines
841-845): round the file size up to the nearest multiple of 512. -/
def fsize_padded (s : ℕ) : ℕ :=
  let p := s / 512 * 512
  if p < s then p + 512 else p

/-- `DTAR_header_sizes[idx]` as computed by the planning loop (lines
815-835): the probed header size for files, directories and symlinks,
and 0 for anything else. -/
def header_size (e : Entry) : ℕ :=
  match e.ftype with
  | mfu_filetype.other => 0
  | _ => e.hsize

/-- `fsizes[idx]` as computed by the planning loop (lines 815-853): the
slot an entry occupies in the archive.  Directories and symlinks take
only their header; a regular file takes its header plus its payload
rounded up to 512-byte blocks; other types take no space. -/
def slot_size (e : Entry) : ℕ :=
  match e.ftype with
  | mfu_filetype.dir => e.hsize
  | mfu_filetype.link => e.hsize
  | mfu_filetype.file => e.hsize + fsize_padded e.size
  | mfu_filetype.other => 0

/-- The rank-local running offset of entry `i` before the global
adjustment: `DTAR_offsets[i]` right after the loop at lines 815-858,
i.e. the sum of the slot sizes of the entries before `i`. -/
def local_offset (l : List Entry) (i : ℕ) : ℕ :=
  ((l.take i).map slot_size).sum

/-- The final value of the rank-local variable `offset`: the sum of all
slot sizes of this rank (its contribution to the archive). -/
def local_total (l : List Entry) : ℕ :=
  (l.map slot_size).sum

/-- A cluster-wide layout: one file-list shard per rank, in rank order. -/
def shardAt (shards : List (List Entry)) (r : ℕ) : List Entry :=
  shards.getD r []

/-- The entry at local index `i` of rank `r`. -/
def entryAt (shards : List (List Entry)) (r i : ℕ) : Entry :=
  (shardAt shards r).getD i dfltEntry

/-- `global_offset` of rank `r` (lines 869-871): the `MPI_Scan` of the
per-rank totals minus the rank's own total, i.e. the exclusive prefix
sum of the totals of ranks below `r`. -/
def rank_base (shards : List (List Entry)) (r : ℕ) : ℕ :=
  ((shards.take r).map local_total).sum

/-- `DTAR_offsets[i]` after the global adjustment at lines 874-876:
the absolute byte offset of entry `(r, i)` in the archive. -/
def DTAR_offset (shards : List (List Entry)) (r i : ℕ) : ℕ :=
  rank_base shards r + local_offset (shardAt shards r) i

/-- `archive_size` (line 866): `MPI_Allreduce` sum of the per-rank
totals. -/
def archive_size (shards : List (List Entry)) : ℕ :=
  (shards.map local_total).sum

/- ### Work items: DTAR_enqueue_copy / DTAR_perform_copy -/

/-- 2^64, the modulus of the C `uint64_t` arithmetic. -/
def U64 : ℕ := 2 ^ 64

/-- A decoded `DTAR_operation_t` as used by the copy phase: the size of
the source file, the index of the chunk to copy, and `op->offset`, the
absolute archive offset of the file's first data byte. -/
structure WorkItem where
  file_size : ℕ
  chunk_index : ℕ
  offset : ℕ
deriving DecidableEq

/-- `num_chunks` as computed in `DTAR_enqueue_copy` (line 401) and
`DTAR_perform_copy` (line 453): the number of whole chunks in the file. -/
def num_chunks (cs s : ℕ) : ℕ := s / cs

/-- The work items `DTAR_enqueue_copy` (lines 386-418) enqueues for one
entry whose data starts at absolute archive offset `dataoffset`: one
item per whole chunk, plus one trailing item when a remainder exists or
when the file is empty; nothing for non-regular-file entries. -/
def DTAR_enqueue_entry (cs : ℕ) (e : Entry) (dataoffset : ℕ) : List WorkItem :=
  if e.ftype = mfu_filetype.file then
    ((List.range (num_chunks cs e.size)).map fun c => ⟨e.size, c, dataoffset⟩) ++
      (if num_chunks cs e.size * cs < e.size ∨ num_chunks cs e.size = 0 then
        [⟨e.size, num_chunks cs e.size, dataoffset⟩]
      else [])
  else []

/-- Number of work items enqueued for a regular file of size `s`. -/
def chunks_for (cs s : ℕ) : ℕ :=
  if num_chunks cs s * cs < s ∨ num_chunks cs s = 0 then num_chunks cs s + 1
  else num_chunks cs s

/-- All work items of rank `r`: `DTAR_enqueue_copy` iterates over the
rank-local list, passing `DTAR_offsets[idx] + DTAR_header_sizes[idx]`
as the data offset (line 398). -/
def DTAR_enqueue_rank (cs : ℕ) (shards : List (List Entry)) (r : ℕ) : List WorkItem :=
  (List.range (shardAt shards r).length).flatMap fun i =>
    DTAR_enqueue_entry cs (entryAt shards r i)
      (DTAR_offset shards r i + (entryAt shards r i).hsize)

/-- The number of payload bytes `DTAR_perform_copy` (lines 440-448)
writes for a chunk: it seeks the source to `chunk_index * chunk_size`
and copies until it has written `chunk_size` bytes or the source is
exhausted (truncated subtraction models reads past end-of-file
returning 0 bytes). -/
def payload_len (cs s c : ℕ) : ℕ := min cs (s - c * cs)

/-- `last_chunk` as computed in `DTAR_perform_copy` (lines 453-455) in
`uint64_t` arithmetic: `num_chunks` when the file size is not a
multiple of the chunk size, otherwise `num_chunks - 1`, which for a
zero-size file wraps around to `2^64 - 1`. -/
def last_chunk (cs s : ℕ) : ℕ :=
  if s - cs * num_chunks cs s ≠ 0 then num_chunks cs s
  else (num_chunks cs s + (U64 - 1)) % U64

/-- The number of padding bytes `DTAR_perform_copy` (lines 457-464)
writes after the payload of a chunk: for the last chunk it computes
`padding = 512 - file_size % 512` and writes it when it is strictly
between 0 and 512; other chunks write no padding. -/
def pad_len (cs s c : ℕ) : ℕ :=
  if c = last_chunk cs s then
    if 0 < 512 - s % 512 ∧ 512 - s % 512 ≠ 512 then 512 - s % 512 else 0
  else 0

/-- The set of archive byte positions `DTAR_perform_copy` writes while
processing the work item `(file size s, chunk c)` of a file whose data
begins at `d`: the payload bytes at `out_offset = d + c * chunk_size`,
followed immediately by the padding bytes (written from a zeroed
512-byte buffer) when this is the last chunk. -/
def written_bytes (cs d s c : ℕ) : Finset ℕ :=
  Finset.Ico (d + c * cs) (d + c * cs + payload_len cs s c) ∪
    Finset.Ico (d + c * cs + payload_len cs s c)
      (d + c * cs + payload_len cs s c + pad_len cs s c)

/-- The content of the padding write: `DTAR_perform_copy` writes from
`char buff[512] = {0}`, i.e. `pad_len` zero bytes. -/
def pad_bytes (cs s c : ℕ) : List ℕ :=
  List.replicate (pad_len cs s c) 0

/-- The proposition that `(r, i, c)` identifies a work item the create
flow enqueues: rank `r` exists, local index `i` exists, the entry is a
regular file, and `c` is one of its chunk indices. -/
def is_work_item (cs : ℕ) (shards : List (List Entry)) (r i c : ℕ) : Prop :=
  r < shards.length ∧ i < (shardAt shards r).length ∧
    (entryAt shards r i).ftype = mfu_filetype.file ∧
    c < chunks_for cs (entryAt shards r i).size

instance (cs : ℕ) (shards : List (List Entry)) (r i c : ℕ) :
    Decidable (is_work_item cs shards r i c) := by
  unfold is_work_item
  infer_instance

/-- The slot sizing rule in the words of the specification: the header
alone for directories and symlinks, the header plus
`ceil(size / 512) * 512` for regular files (and nothing for the types
the archiver does not place). -/
def slot_size_claim (e : Entry) : ℕ :=
  if e.ftype = mfu_filetype.dir ∨ e.ftype = mfu_filetype.link then header_size e
  else if e.ftype = mfu_filetype.file then
    header_size e + (e.size + 511) / 512 * 512
  else 0

/- ### Extractor range partition (mfu_flist_archive_extract, lines 2063-2076) -/

/-- `entries_per_rank = entries / ranks` (line 2064). -/
def entries_per_rank (e r : ℕ) : ℕ := e / r

/-- `entries_remainder = entries - entries_per_rank * ranks` (line 2065). -/
def entries_remainder (e r : ℕ) : ℕ := e - entries_per_rank e r * r

/-- `entry_count` for a given rank (lines 2070-2075): ranks below the
remainder take one extra entry. -/
def entry_count (e r rank : ℕ) : ℕ :=
  if rank < entries_remainder e r then entries_per_rank e r + 1
  else entries_per_rank e r

/-- `entry_start` for a given rank (lines 2070-2075). -/
def entry_start (e r rank : ℕ) : ℕ :=
  if rank < entries_remainder e r then rank * (entries_per_rank e r + 1)
  else entries_remainder e r * (entries_per_rank e r + 1) +
    (rank - entries_remainder e r) * entries_per_rank e r

/- ### Index sidecar (write_entry_index / read_entry_index) -/

/-- `mfu_pack_uint64` packs a `uint64_t` in network (big-endian) byte
order; `n` is the number of bytes still to emit. -/
def packBE : ℕ → ℕ → List ℕ
  | 0, _ => []
  | n + 1, v => packBE n (v / 256) ++ [v % 256]

/-- `mfu_unpack_uint64` reads 8 bytes in network byte order back into a
host integer. -/
def unpackBE (bytes : List ℕ) : ℕ :=
  bytes.foldl (fun a b => a * 256 + b) 0

/-- The byte image of one rank's offset array as packed by the loop at
lines 585-590 of `write_entry_index`. -/
def pack_offsets (l : List ℕ) : List ℕ :=
  l.flatMap (packBE 8)

/-- Unpack `n` consecutive `uint64_t` values from a byte string, as the
loop at lines 684-689 of `read_entry_index` does. -/
def unpack_uint64s : ℕ → List ℕ → List ℕ
  | 0, _ => []
  | n + 1, bytes => unpackBE (bytes.take 8) :: unpack_uint64s n (bytes.drop 8)

/-- `pwrite(fd, data, pos)` on a file whose current content is `file`:
bytes before `pos` are kept (with zero fill if the file is shorter),
`data` overlays `[pos, pos + len)`, and bytes after are kept. -/
def pwrite (file : List ℕ) (pos : ℕ) (data : List ℕ) : List ℕ :=
  file.take pos ++ List.replicate (pos - file.length) 0 ++ data ++
    file.drop (pos + data.length)

/-- The pwrites of `write_entry_index` (lines 550-614) applied in rank
order: each rank writes its packed offsets at byte position
`offset * 8` where `offset` is the exclusive prefix sum of the entry
counts (the `MPI_Scan` at lines 566-567).  The regions are disjoint, so
the order of application is immaterial. -/
def apply_rank_writes : List ℕ → ℕ → List (List ℕ) → List ℕ
  | file, _, [] => file
  | file, pos, l :: rest =>
    apply_rank_writes (pwrite file (pos * 8) (pack_offsets l)) (pos + l.length) rest

/-- The content of `<archive>.idx` after `write_entry_index`: rank 0
creates the file empty (`O_TRUNC`), then every rank pwrites its shard. -/
def write_entry_index_file (offss : List (List ℕ)) : List ℕ :=
  apply_rank_writes [] 0 offss

/-- `read_entry_index` (lines 616-705) as seen from its result: `statOk`
is whether rank 0's stat of `<archive>.idx` succeeded, `openOk` whether
its open succeeded, and `bytes` the content of the index file.  The
entry count is `st.st_size / sizeof(uint64_t)` (line 639); the read of
`count * 8` bytes succeeds whenever the file is at least that long; on
success the count and the unpacked offsets are returned. -/
def read_entry_index (statOk openOk : Bool) (bytes : List ℕ) :
    Option (ℕ × List ℕ) :=
  if statOk = false then none
  else if openOk = false then none
  else if bytes.length < bytes.length / 8 * 8 then none
  else some (bytes.length / 8, unpack_uint64s (bytes.length / 8) bytes)

/- ### Work item encoding (DTAR_encode_operation / DTAR_decode_operation) -/

/-- `CIRCLE_MAX_STRING_LEN`, the capacity of a libcircle message. -/
def CIRCLE_MAX_STRING_LEN : ℕ := 4096

/-- The numeric value of the only operation code, `COPY_DATA`. -/
def COPY_DATA : ℕ := 0

/-- The byte value of the ASCII colon delimiter. -/
def colonByte : ℕ := 58

/-- Decimal digits of `n`, most significant first, as ASCII bytes; the
first argument is fuel bounding the recursion depth. -/
def decReprAux : ℕ → ℕ → List ℕ
  | 0, _ => []
  | fuel + 1, n => if n = 0 then [] else decReprAux fuel (n / 10) ++ [48 + n % 10]

/-- The ASCII decimal representation `snprintf` emits for an unsigned
integer (a lone `'0'` digit for zero). -/
def decRepr (n : ℕ) : List ℕ :=
  if n = 0 then [48] else decReprAux n n

/-- `sscanf` with an unsigned conversion applied to one token: succeeds
exactly on nonempty all-digit tokens. -/
def parseDec (s : List ℕ) : Option ℕ :=
  if s ≠ [] ∧ s.all (fun b => 48 ≤ b ∧ b ≤ 57) then
    some (s.foldl (fun a b => a * 10 + (b - 48)) 0)
  else none

/-- One `strtok(·, ":")` step: skip leading colons, return the token up
to the next colon (or end of string) and the remainder after that
colon.  The remainder is also where `str + strlen(str) + 1` points when
the token is followed by a colon. -/
def strtok1 (s : List ℕ) : List ℕ × List ℕ :=
  let s1 := s.dropWhile (fun b => b == colonByte)
  (s1.takeWhile (fun b => !(b == colonByte)),
    (s1.dropWhile (fun b => !(b == colonByte))).drop 1)

/-- A decoded `DTAR_operation_t`. -/
structure DTAR_operation where
  file_size : ℕ
  chunk_index : ℕ
  offset : ℕ
  code : ℕ
  operand : List ℕ
deriving DecidableEq

/-- `DTAR_encode_operation` (lines 323-344): the `snprintf` format
`"%fsize:%chunk:%offset:%code:%len:%operand"` where `len` is
`strlen(operand)`. -/
def DTAR_encode_operation (code : ℕ) (operand : List ℕ)
    (fsize chunk_idx offset : ℕ) : List ℕ :=
  decRepr fsize ++ colonByte ::
    (decRepr chunk_idx ++ colonByte ::
      (decRepr offset ++ colonByte ::
        (decRepr code ++ colonByte ::
          (decRepr operand.length ++ colonByte :: operand))))

/-- `DTAR_decode_operation` (lines 346-384): four `strtok`/`sscanf`
rounds for the numeric fields, one more for the operand length, then
the operand is taken to be the bytes right after the length token's
terminating colon, truncated to the decoded length
(`operand[op_len] = 0`).  Returns `none` where the C code aborts
(an `sscanf` mismatch). -/
def DTAR_decode_operation (s : List ℕ) : Option DTAR_operation :=
  let p1 := strtok1 s
  let p2 := strtok1 p1.2
  let p3 := strtok1 p2.2
  let p4 := strtok1 p3.2
  let p5 := strtok1 p4.2
  match parseDec p1.1, parseDec p2.1, parseDec p3.1, parseDec p4.1, parseDec p5.1 with
  | some fsize, some ci, some off, some code, some oplen =>
    some ⟨fsize, ci, off, code, p5.2.take oplen⟩
  | _, _, _, _, _ => none

/- ### Return-code plumbing of the create and extract flows -/

/-- `mfu_alltrue`: the MPI AND-reduction of one flag per rank. -/
def mfu_alltrue (flags : List Bool) : Bool := flags.all id

/-- The result of `write_entry_index` (lines 593-613): each rank's flag
is true when its open and its full pwrite succeeded, and the returned
value is the `mfu_alltrue` combination across ranks. -/
def write_entry_index_rc (rank_ok : List Bool) : Bool := mfu_alltrue rank_ok

/-- The return code of `extract_flist_offsets` (lines 1375-1507): a
per-rank failure is combined across ranks with `mfu_alltrue` before
returning. -/
def extract_flist_offsets_rc (rank_ok : List Bool) : Status :=
  if mfu_alltrue rank_ok then Status.MFU_SUCCESS else Status.MFU_FAILURE

/-- The return code of `mfu_flist_archive_create_libcircle` (lines
753-1013) as a function of the outcomes of its fallible sub-steps: the
per-entry `encode_header` probe results (lines 825, 833, discarded),
the `write_entry_index` result (line 879, discarded), and the per-entry
header write results inside `DTAR_write_header` (line 318, `mfu_write`
result discarded).  The local `rc` is initialized to `MFU_SUCCESS` at
line 761 and never reassigned, so the function returns success
regardless. -/
def archive_create_rc (encode_ok : List Bool) (write_index_ok : Bool)
    (header_write_ok : List Bool) : Status :=
  Status.MFU_SUCCESS

/-- The return code of `mfu_flist_archive_extract` (lines 1995-2210) as
a function of the outcomes of its phases: `read_entry_index` (line
2037, only used to pick the fallback), `index_entries` (line 2044,
likewise), the metadata phase `extract_flist_offsets`/`extract_flist`
(lines 2081-2083, result discarded) and the extraction phase
`extract_files_offsets`/`extract_files` (lines 2110-2112, result
discarded).  The local `rc` is initialized to `MFU_SUCCESS` at line
2002 and never reassigned, so the function returns success
regardless. -/
def archive_extract_rc (read_index_ok : Bool) (scan_ok : Bool)
    (flist_phase : Status) (files_phase : Status) : Status :=
  Status.MFU_SUCCESS

/- ### Basic layout lemmas -/

theorem fsize_padded_eq_ceil (s : ℕ) : fsize_padded s = (s + 511) / 512 * 512 := by
  simp only [fsize_padded]
  split_ifs <;> omega

theorem le_fsize_padded (s : ℕ) : s ≤ fsize_padded s := by
  simp only [fsize_padded]
  split_ifs <;> omega

theorem fsize_padded_eq_add_pad (s : ℕ) :
    fsize_padded s = s + (512 - s % 512) % 512 := by
  simp only [fsize_padded]
  split_ifs <;> omega

theorem slot_size_dflt : slot_size dfltEntry = 0 := rfl

theorem local_offset_zero (l : List Entry) : local_offset l 0 = 0 := rfl

theorem local_offset_succ (l : List Entry) (i : ℕ) :
    local_offset l (i + 1) = local_offset l i + slot_size (l.getD i dfltEntry) := by
  rcases lt_or_ge i l.length with h | h
  · have he : l.take (i + 1) = l.take i ++ [l.getD i dfltEntry] := by
      rw [List.take_succ, List.getElem?_eq_getElem h, List.getD_eq_getElem l dfltEntry h]
      rfl
    simp [local_offset, he]
  · have h3 : l.getD i dfltEntry = dfltEntry := List.getD_eq_default _ _ h
    rw [h3, slot_size_dflt]
    have h1 : l.take (i + 1) = l := List.take_of_length_le (by omega)
    have h2 : l.take i = l := List.take_of_length_le h
    simp [local_offset, h1, h2]

theorem local_offset_mono (l : List Entry) {i j : ℕ} (h : i ≤ j) :
    local_offset l i ≤ local_offset l j := by
  induction h with
  | refl => exact le_rfl
  | step _ ih =>
    rw [local_offset_succ]
    omega

theorem local_offset_le_total (l : List Entry) (i : ℕ) :
    local_offset l i ≤ local_total l := by
  simp only [local_offset, local_total]
  exact List.Sublist.sum_le_sum ((l.take_sublist i).map slot_size) (by intro x hx; omega)

theorem local_offset_add_slot_le (l : List Entry) {i : ℕ} (h : i < l.length) :
    local_offset l i + slot_size (l.getD i dfltEntry) ≤ local_total l := by
  rw [← local_offset_succ]
  exact local_offset_le_total l (i + 1)

theorem rank_base_succ (shards : List (List Entry)) (r : ℕ) :
    rank_base shards (r + 1) = rank_base shards r + local_total (shardAt shards r) := by
  rcases lt_or_ge r shards.length with h | h
  · have he : shards.take (r + 1) = shards.take r ++ [shards.getD r []] := by
      rw [List.take_succ, List.getElem?_eq_getElem h, List.getD_eq_getElem shards [] h]
      rfl
    simp [rank_base, shardAt, he]
  · have h3 : shardAt shards r = [] := List.getD_eq_default _ _ h
    rw [h3]
    have h1 : shards.take (r + 1) = shards := List.take_of_length_le (by omega)
    have h2 : shards.take r = shards := List.take_of_length_le h
    simp [rank_base, h1, h2, local_total]

theorem rank_base_mono (shards : List (List Entry)) {r s : ℕ} (h : r ≤ s) :
    rank_base shards r ≤ rank_base shards s := by
  induction h with
  | refl => exact le_rfl
  | step _ ih =>
    rw [rank_base_succ]
    omega

/-- Key layout fact: the slot of an earlier entry (in (rank, index)
lexicographic order) ends no later than a later entry begins. -/
theorem layout_lex_le (shards : List (List Entry)) {r i s j : ℕ}
    (hi : i < (shardAt shards r).length)
    (hlex : r < s ∨ (r = s ∧ i < j)) :
    DTAR_offset shards r i + slot_size (entryAt shards r i) ≤ DTAR_offset shards s j := by
  rcases hlex with h | ⟨rfl, h⟩
  · have h1 : DTAR_offset shards r i + slot_size (entryAt shards r i) ≤
        rank_base shards r + local_total (shardAt shards r) := by
      have := local_offset_add_slot_le (shardAt shards r) hi
      simp only [DTAR_offset, entryAt]
      omega
    have h2 : rank_base shards r + local_total (shardAt shards r) ≤ rank_base shards s := by
      rw [← rank_base_succ]
      exact rank_base_mono shards h
    have h3 : rank_base shards s ≤ DTAR_offset shards s j := Nat.le_add_right _ _
    omega
  · simp only [DTAR_offset, entryAt]
    have h1 := local_offset_succ (shardAt shards r) i
    have h2 := local_offset_mono (shardAt shards r) (show i + 1 ≤ j by omega)
    omega


/- ### Chunk arithmetic lemmas -/

theorem DTAR_enqueue_entry_eq_range (cs : ℕ) (e : Entry) (d : ℕ)
    (hf : e.ftype = mfu_filetype.file) :
    DTAR_enqueue_entry cs e d =
      (List.range (chunks_for cs e.size)).map fun c => ⟨e.size, c, d⟩ := by
  rw [DTAR_enqueue_entry, if_pos hf]
  simp only [chunks_for]
  split_ifs with h
  · rw [List.range_succ, List.map_append]
    simp
  · simp

theorem chunks_for_eq_max (cs s : ℕ) (hcs : 0 < cs) :
    chunks_for cs s = max 1 ((s + cs - 1) / cs) := by
  have hdm := Nat.div_add_mod' s cs
  have hm := Nat.mod_lt s hcs
  rcases Nat.eq_zero_or_pos s with hs | hs
  · subst hs
    have h0 : (cs - 1) / cs = 0 := Nat.div_eq_of_lt (by omega)
    simp [chunks_for, num_chunks, h0]
  · have hceil : (s + cs - 1) / cs = s / cs + (s % cs + cs - 1) / cs := by
      have h1 : s + cs - 1 = cs * (s / cs) + (s % cs + cs - 1) := by
        rw [Nat.mul_comm cs (s / cs)]
        omega
      rw [h1, Nat.mul_add_div hcs]
    rcases Nat.eq_zero_or_pos (s % cs) with hr | hr
    · have h2 : (s % cs + cs - 1) / cs = 0 := Nat.div_eq_of_lt (by omega)
      have hpos : 0 < s / cs := by
        apply Nat.div_pos _ hcs
        by_contra h
        push_neg at h
        rw [Nat.mod_eq_of_lt h] at hr
        omega
      have h3 : ¬(num_chunks cs s * cs < s ∨ num_chunks cs s = 0) := by
        simp only [num_chunks]
        push_neg
        constructor <;> omega
      rw [chunks_for, if_neg h3, hceil, h2, Nat.add_zero, num_chunks,
        Nat.max_eq_right hpos]
    · have h2 : (s % cs + cs - 1) / cs = 1 := by
        have he : s % cs + cs - 1 = cs * 1 + (s % cs - 1) := by omega
        rw [he, Nat.mul_add_div hcs, Nat.div_eq_of_lt (by omega)]
      have h3 : num_chunks cs s * cs < s := by
        simp only [num_chunks]
        omega
      rw [chunks_for, if_pos (Or.inl h3), hceil, h2, num_chunks,
        Nat.max_eq_right (Nat.le_add_left 1 (s / cs))]

theorem mul_cs_le_of_lt_chunks_for {cs s c : ℕ} (hc : c < chunks_for cs s) :
    c * cs ≤ s := by
  have hdm := Nat.div_add_mod' s cs
  have hle : c ≤ s / cs := by
    simp only [chunks_for, num_chunks] at hc
    split_ifs at hc <;> omega
  calc c * cs ≤ s / cs * cs := Nat.mul_le_mul_right cs hle
    _ ≤ s := Nat.div_mul_le_self s cs

theorem payload_end_eq (cs s c : ℕ) (hc : c < chunks_for cs s) :
    c * cs + payload_len cs s c = min ((c + 1) * cs) s := by
  have h1 := mul_cs_le_of_lt_chunks_for hc
  simp only [payload_len, Nat.min_def, Nat.succ_mul]
  split_ifs <;> omega

/-- For a nonempty file, the variable `last_chunk` of `DTAR_perform_copy`
is the index of the last enqueued work item. -/
theorem last_chunk_eq (cs s : ℕ) (hcs : 0 < cs) (hs : 0 < s) (hsU : s < U64) :
    last_chunk cs s = chunks_for cs s - 1 := by
  have hdm := Nat.div_add_mod' s cs
  have hm := Nat.mod_lt s hcs
  have hU : U64 = 18446744073709551616 := by norm_num [U64]
  have hnU : num_chunks cs s < U64 :=
    Nat.lt_of_le_of_lt (Nat.div_le_self s cs) hsU
  have hrem : s - cs * num_chunks cs s = s % cs := by
    simp only [num_chunks]
    rw [Nat.mul_comm cs (s / cs)]
    omega
  rcases Nat.eq_zero_or_pos (s % cs) with hr | hr
  · have hcss : cs ≤ s := by
      by_contra h
      push_neg at h
      rw [Nat.mod_eq_of_lt h] at hr
      omega
    have hn : 0 < s / cs := Nat.div_pos hcss hcs
    have hn' : 0 < num_chunks cs s := hn
    have h1 : last_chunk cs s = num_chunks cs s - 1 := by
      rw [last_chunk, if_neg (by rw [hrem, hr]; exact fun h => h rfl)]
      have h2 : num_chunks cs s + (U64 - 1) = (num_chunks cs s - 1) + 1 * U64 := by
        omega
      rw [h2, Nat.add_mul_mod_self_right,
        Nat.mod_eq_of_lt (show num_chunks cs s - 1 < U64 by omega)]
    have h3 : ¬(num_chunks cs s * cs < s ∨ num_chunks cs s = 0) := by
      simp only [num_chunks]
      push_neg
      omega
    rw [h1, chunks_for, if_neg h3]
  · have h1 : last_chunk cs s = num_chunks cs s := by
      rw [last_chunk, if_pos (by rw [hrem]; omega)]
    have h2 : num_chunks cs s * cs < s := by
      simp only [num_chunks]
      omega
    rw [h1, chunks_for, if_pos (Or.inl h2)]
    omega

theorem chunks_for_pos (cs s : ℕ) : 0 < chunks_for cs s := by
  rw [chunks_for]
  split_ifs with h
  · omega
  · push_neg at h
    omega

theorem chunks_for_mul_ge (cs s : ℕ) (hcs : 0 < cs) : s ≤ chunks_for cs s * cs := by
  have hdm := Nat.div_add_mod' s cs
  have hm := Nat.mod_lt s hcs
  rw [chunks_for]
  split_ifs with h
  · simp only [num_chunks] at *
    rw [Nat.succ_mul]
    omega
  · push_neg at h
    simp only [num_chunks] at *
    omega

/-- For a zero-size file the only work item has chunk index 0, and the
`last_chunk` value wraps around to `2^64 - 1`, so the padding branch is
skipped. -/
theorem last_chunk_zero (cs : ℕ) : last_chunk cs 0 = U64 - 1 := by
  have h0 : num_chunks cs 0 = 0 := Nat.zero_div cs
  simp [last_chunk, h0, U64]

theorem pad_len_zero_size (cs c : ℕ) (hc : c < chunks_for cs 0) :
    pad_len cs 0 c = 0 := by
  have h1 : chunks_for cs 0 = 1 := by
    simp [chunks_for, num_chunks]
  rw [pad_len, if_neg]
  rw [last_chunk_zero]
  simp only [U64]
  omega

/-- Characterization of the padding write: only the work item whose
chunk index is the last enqueued one pads, and it pads with
`(512 - file_size % 512) % 512` bytes. -/
theorem pad_len_eq (cs s c : ℕ) (hcs : 0 < cs) (hsU : s < U64)
    (hc : c < chunks_for cs s) :
    pad_len cs s c =
      if c = chunks_for cs s - 1 then (512 - s % 512) % 512 else 0 := by
  rcases Nat.eq_zero_or_pos s with hs | hs
  · subst hs
    have h1 : chunks_for cs 0 = 1 := by
      simp [chunks_for, num_chunks]
    rw [pad_len_zero_size cs c hc, h1]
    norm_num
  · rw [pad_len, last_chunk_eq cs s hcs hs hsU]
    split_ifs with h1 h2
    · have hm : s % 512 < 512 := Nat.mod_lt s (by omega)
      omega
    · have hm : s % 512 < 512 := Nat.mod_lt s (by omega)
      omega
    · rfl

/-- The payload bytes of the first `k` chunks cover `min (k * cs) s`
bytes of the file. -/
theorem sum_payload_len (cs s k : ℕ) :
    ∑ c ∈ Finset.range k, payload_len cs s c = min (k * cs) s := by
  induction k with
  | zero => simp
  | succ k ih =>
    rw [Finset.sum_range_succ, ih]
    simp only [payload_len, Nat.min_def, Nat.succ_mul]
    split_ifs <;> omega

/-- The payload bytes of all enqueued chunks cover the whole file. -/
theorem sum_payload_len_all (cs s : ℕ) (hcs : 0 < cs) :
    ∑ c ∈ Finset.range (chunks_for cs s), payload_len cs s c = s := by
  rw [sum_payload_len]
  exact Nat.min_eq_right (chunks_for_mul_ge cs s hcs)

/-- The padding bytes of all enqueued chunks amount to exactly the tar
block padding of the file. -/
theorem sum_pad_len_all (cs s : ℕ) (hcs : 0 < cs) (hsU : s < U64) :
    ∑ c ∈ Finset.range (chunks_for cs s), pad_len cs s c = (512 - s % 512) % 512 := by
  have hpos := chunks_for_pos cs s
  have he : ∀ c ∈ Finset.range (chunks_for cs s),
      pad_len cs s c = if c = chunks_for cs s - 1 then (512 - s % 512) % 512 else 0 := by
    intro c hc
    exact pad_len_eq cs s c hcs hsU (Finset.mem_range.mp hc)
  rw [Finset.sum_congr rfl he, Finset.sum_ite_eq' (Finset.range (chunks_for cs s))]
  rw [if_pos (Finset.mem_range.mpr (by omega))]

/-- The last enqueued chunk finishes writing its payload exactly at the
end of the file data, so its padding lands immediately after the
file's final data byte. -/
theorem last_payload_end (cs s : ℕ) (hcs : 0 < cs) :
    (chunks_for cs s - 1) * cs + payload_len cs s (chunks_for cs s - 1) = s := by
  have hpos := chunks_for_pos cs s
  have h1 := payload_end_eq cs s (chunks_for cs s - 1) (by omega)
  have h2 : chunks_for cs s - 1 + 1 = chunks_for cs s := by omega
  rw [h1, h2]
  exact Nat.min_eq_right (chunks_for_mul_ge cs s hcs)

/-- The write region of a work item is one contiguous interval: payload
bytes followed by padding bytes. -/
theorem written_bytes_eq_Ico (cs d s c : ℕ) :
    written_bytes cs d s c =
      Finset.Ico (d + c * cs)
        (d + c * cs + payload_len cs s c + pad_len cs s c) := by
  rw [written_bytes, Finset.Ico_union_Ico_eq_Ico (by omega) (by omega)]

/-- All bytes a work item writes lie inside the data area of its entry:
at or after the first data byte `d`, strictly before `d` plus the
512-padded file size. -/
theorem written_bytes_subset (cs d s c : ℕ) (hcs : 0 < cs) (hsU : s < U64)
    (hc : c < chunks_for cs s) :
    written_bytes cs d s c ⊆ Finset.Ico d (d + fsize_padded s) := by
  rw [written_bytes_eq_Ico]
  apply Finset.Ico_subset_Ico (Nat.le_add_right d (c * cs))
  have hpe := payload_end_eq cs s c hc
  have hfp := fsize_padded_eq_add_pad s
  have hsf := le_fsize_padded s
  rw [pad_len_eq cs s c hcs hsU hc]
  split_ifs with h
  · have hle := last_payload_end cs s hcs
    rw [h] at hpe ⊢
    omega
  · have : c * cs + payload_len cs s c ≤ s := by
      rw [hpe]
      exact Nat.min_le_right _ s
    omega

/-- Work items with distinct chunk indices for the same entry write
disjoint byte regions. -/
theorem written_bytes_disjoint_chunks (cs d s c c' : ℕ) (hcs : 0 < cs)
    (hsU : s < U64) (hc : c < chunks_for cs s) (hc' : c' < chunks_for cs s)
    (hne : c ≠ c') :
    Disjoint (written_bytes cs d s c) (written_bytes cs d s c') := by
  -- by symmetry assume c < c'
  wlog hlt : c < c' generalizing c c'
  · exact (this c' c hc' hc (Ne.symm hne) (by omega)).symm
  rw [Finset.disjoint_left]
  intro x hx hx'
  rw [written_bytes_eq_Ico, Finset.mem_Ico] at hx hx'
  -- c is not the last chunk, so it writes no padding
  have hpad : pad_len cs s c = 0 := by
    rw [pad_len_eq cs s c hcs hsU hc]
    rw [if_neg (by omega)]
  have hpl : payload_len cs s c ≤ cs := Nat.min_le_left _ _
  have hmul : (c + 1) * cs ≤ c' * cs := Nat.mul_le_mul_right cs (by omega)
  rw [Nat.succ_mul] at hmul
  omega

theorem slot_size_file {e : Entry} (hf : e.ftype = mfu_filetype.file) :
    slot_size e = e.hsize + fsize_padded e.size := by
  simp [slot_size, hf]

theorem slot_size_eq_claim (e : Entry) : slot_size e = slot_size_claim e := by
  cases h : e.ftype <;>
    simp [slot_size, slot_size_claim, header_size, fsize_padded_eq_ceil, h]

/-- The bytes written for a work item stay inside the slot of its
entry. -/
theorem written_bytes_subset_slot (cs : ℕ) (shards : List (List Entry))
    (r i c : ℕ) (hcs : 0 < cs) (h : is_work_item cs shards r i c)
    (hU : (entryAt shards r i).size < U64) :
    written_bytes cs (DTAR_offset shards r i + (entryAt shards r i).hsize)
        (entryAt shards r i).size c ⊆
      Finset.Ico (DTAR_offset shards r i)
        (DTAR_offset shards r i + slot_size (entryAt shards r i)) := by
  obtain ⟨hr, hi, hf, hc⟩ := h
  refine subset_trans (written_bytes_subset cs _ _ c hcs hU hc) ?_
  apply Finset.Ico_subset_Ico (Nat.le_add_right _ _)
  rw [slot_size_file hf]
  omega

/-- Work items of two entries, the first one earlier in the layout,
write disjoint byte regions. -/
theorem written_bytes_disjoint_entries (cs : ℕ) (shards : List (List Entry))
    (r i c s j c' : ℕ) (hcs : 0 < cs)
    (h1 : is_work_item cs shards r i c) (h2 : is_work_item cs shards s j c')
    (hU1 : (entryAt shards r i).size < U64)
    (hU2 : (entryAt shards s j).size < U64)
    (hlex : r < s ∨ (r = s ∧ i < j)) :
    Disjoint
      (written_bytes cs (DTAR_offset shards r i + (entryAt shards r i).hsize)
        (entryAt shards r i).size c)
      (written_bytes cs (DTAR_offset shards s j + (entryAt shards s j).hsize)
        (entryAt shards s j).size c') := by
  have hs1 := written_bytes_subset_slot cs shards r i c hcs h1 hU1
  have hs2 := written_bytes_subset_slot cs shards s j c' hcs h2 hU2
  have hle := layout_lex_le shards h1.2.1 hlex
  rw [Finset.disjoint_left]
  intro x hx hx'
  have m1 := Finset.mem_Ico.mp (hs1 hx)
  have m2 := Finset.mem_Ico.mp (hs2 hx')
  omega

theorem list_range_map_sum (f : ℕ → ℕ) (n : ℕ) :
    ((List.range n).map f).sum = ∑ c ∈ Finset.range n, f c := by
  induction n with
  | zero => simp
  | succ n ih =>
    rw [List.range_succ, List.map_append, List.sum_append, Finset.sum_range_succ, ih]
    simp

/- ### Claim theorems for the writer -/

/-- A fixed two-rank layout used as a concrete witness input: rank 0
holds one 9-byte file with a 3-byte header, rank 1 holds one 5-byte
file with a 2-byte header. -/
def exShards : List (List Entry) :=
  [[⟨mfu_filetype.file, 9, 3⟩], [⟨mfu_filetype.file, 5, 2⟩]]

/-- C1 (as stated) is false: the claim equates the byte range a work
item writes with its payload interval
`[d + c*cs, d + min ((c+1)*cs, S))`, but the item processing the last
chunk additionally writes the tar padding after the final data byte.
Concretely, with `chunk_size = 512` and a 513-byte file whose data
starts at offset 0, the item for chunk 1 writes `[512, 1024)`, not
`[512, 513)`. -/
theorem C1_range_counterexample :
    1 < chunks_for 512 513 ∧
      written_bytes 512 0 513 1 ≠
        Finset.Ico (0 + 1 * 512) (0 + min ((1 + 1) * 512) 513) := by
  constructor
  · decide
  · intro h
    have h1 : (513 : ℕ) ∈ written_bytes 512 0 513 1 := by decide
    rw [h] at h1
    have h2 := Finset.mem_Ico.mp h1
    omega

/-- C1 (amended): any two distinct work items `(r, i, c) ≠ (s, j, c')`
of the create flow write disjoint archive byte regions; the payload
part of a work item's write region is exactly
`[d + c*cs, d + min ((c+1)*cs, S))` where `d` is the entry's first
data byte, and the whole write region (payload plus the last chunk's
padding) stays inside the entry's slot
`[offset[i], offset[i] + slot_size[i])`, so no two items ever write
the same archive byte. -/
theorem C1_disjoint_writes (cs : ℕ) (shards : List (List Entry))
    (r i c s j c' : ℕ) (hcs : 0 < cs)
    (h1 : is_work_item cs shards r i c) (h2 : is_work_item cs shards s j c')
    (hU1 : (entryAt shards r i).size < U64)
    (hU2 : (entryAt shards s j).size < U64)
    (hne : ¬(r = s ∧ i = j ∧ c = c')) :
    Disjoint
      (written_bytes cs (DTAR_offset shards r i + (entryAt shards r i).hsize)
        (entryAt shards r i).size c)
      (written_bytes cs (DTAR_offset shards s j + (entryAt shards s j).hsize)
        (entryAt shards s j).size c') ∧
    Finset.Ico (DTAR_offset shards r i + (entryAt shards r i).hsize + c * cs)
        (DTAR_offset shards r i + (entryAt shards r i).hsize + c * cs +
          payload_len cs (entryAt shards r i).size c) =
      Finset.Ico (DTAR_offset shards r i + (entryAt shards r i).hsize + c * cs)
        (DTAR_offset shards r i + (entryAt shards r i).hsize +
          min ((c + 1) * cs) (entryAt shards r i).size) ∧
    written_bytes cs (DTAR_offset shards r i + (entryAt shards r i).hsize)
        (entryAt shards r i).size c ⊆
      Finset.Ico (DTAR_offset shards r i)
        (DTAR_offset shards r i + slot_size (entryAt shards r i)) := by
  refine ⟨?_, ?_, written_bytes_subset_slot cs shards r i c hcs h1 hU1⟩
  · rcases Nat.lt_trichotomy r s with hrs | hrs | hrs
    · exact written_bytes_disjoint_entries cs shards r i c s j c' hcs h1 h2
        hU1 hU2 (Or.inl hrs)
    · rcases Nat.lt_trichotomy i j with hij | hij | hij
      · exact written_bytes_disjoint_entries cs shards r i c s j c' hcs h1 h2
          hU1 hU2 (Or.inr ⟨hrs, hij⟩)
      · subst hrs
        subst hij
        exact written_bytes_disjoint_chunks cs _ _ c c' hcs hU1 h1.2.2.2
          h2.2.2.2 (by tauto)
      · exact (written_bytes_disjoint_entries cs shards s j c' r i c hcs h2 h1
          hU2 hU1 (Or.inr ⟨hrs.symm ▸ rfl, hij⟩)).symm
    · exact (written_bytes_disjoint_entries cs shards s j c' r i c hcs h2 h1
        hU2 hU1 (Or.inl hrs)).symm
  · have hpe := payload_end_eq cs (entryAt shards r i).size c h1.2.2.2
    congr 1
    omega

/-- Witness for C1: in the two-rank layout `exShards` with
`chunk_size = 4`, chunk 0 of rank 0's file and chunk 0 of rank 1's file
are distinct work items, and the theorem's conclusion holds for them. -/
theorem C1_witness :
    (0 < 4 ∧ is_work_item 4 exShards 0 0 0 ∧ is_work_item 4 exShards 1 0 0 ∧
      (entryAt exShards 0 0).size < U64 ∧ (entryAt exShards 1 0).size < U64 ∧
      ¬((0 : ℕ) = 1 ∧ (0 : ℕ) = 0 ∧ (0 : ℕ) = 0)) ∧
    (Disjoint
      (written_bytes 4 (DTAR_offset exShards 0 0 + (entryAt exShards 0 0).hsize)
        (entryAt exShards 0 0).size 0)
      (written_bytes 4 (DTAR_offset exShards 1 0 + (entryAt exShards 1 0).hsize)
        (entryAt exShards 1 0).size 0) ∧
    Finset.Ico (DTAR_offset exShards 0 0 + (entryAt exShards 0 0).hsize + 0 * 4)
        (DTAR_offset exShards 0 0 + (entryAt exShards 0 0).hsize + 0 * 4 +
          payload_len 4 (entryAt exShards 0 0).size 0) =
      Finset.Ico (DTAR_offset exShards 0 0 + (entryAt exShards 0 0).hsize + 0 * 4)
        (DTAR_offset exShards 0 0 + (entryAt exShards 0 0).hsize +
          min ((0 + 1) * 4) (entryAt exShards 0 0).size) ∧
    written_bytes 4 (DTAR_offset exShards 0 0 + (entryAt exShards 0 0).hsize)
        (entryAt exShards 0 0).size 0 ⊆
      Finset.Ico (DTAR_offset exShards 0 0)
        (DTAR_offset exShards 0 0 + slot_size (entryAt exShards 0 0))) :=
  ⟨⟨by decide, by decide, by decide, by decide, by decide, by decide⟩,
    C1_disjoint_writes 4 exShards 0 0 0 1 0 0 (by decide) (by decide)
      (by decide) (by decide) (by decide) (by decide)⟩

/-- C3: in the layout plan, the slot of entry `i` is `header_size[i]`
for directories and symlinks and `header_size[i] + ceil(size/512)*512`
for regular files; each entry occupies exactly
`[offset[i], offset[i] + slot_size[i])` with offsets contiguous and
non-decreasing within a rank; rank `r`'s first offset equals the sum
of all slot sizes on ranks below `r`; slots of distinct entries do not
overlap; and the slots tile the archive body of `archive_size` bytes
with no gaps. -/
theorem C3_layout_plan (shards : List (List Entry)) (r i s j : ℕ)
    (hr : r < shards.length) (hi : i < (shardAt shards r).length)
    (hs : s < shards.length) (hj : j < (shardAt shards s).length)
    (hlex : r < s ∨ (r = s ∧ i < j)) :
    slot_size (entryAt shards r i) = slot_size_claim (entryAt shards r i) ∧
    DTAR_offset shards r (i + 1) =
      DTAR_offset shards r i + slot_size (entryAt shards r i) ∧
    DTAR_offset shards r i ≤ DTAR_offset shards r (i + 1) ∧
    DTAR_offset shards r 0 = rank_base shards r ∧
    rank_base shards (r + 1) = rank_base shards r + local_total (shardAt shards r) ∧
    DTAR_offset shards r i + slot_size (entryAt shards r i) ≤ DTAR_offset shards s j ∧
    archive_size shards = rank_base shards shards.length := by
  refine ⟨slot_size_eq_claim _, ?_, ?_, ?_, rank_base_succ shards r,
    layout_lex_le shards hi hlex, ?_⟩
  · simp only [DTAR_offset, entryAt, local_offset_succ]
    omega
  · simp only [DTAR_offset]
    exact Nat.add_le_add_left (local_offset_mono _ (Nat.le_succ i)) _
  · simp [DTAR_offset, local_offset]
  · simp [archive_size, rank_base, List.take_length]

/-- Witness for C3: the two concrete entries of `exShards`, with entry
(0,0) earlier than entry (1,0). -/
theorem C3_witness :
    ((0 : ℕ) < exShards.length ∧ (0 : ℕ) < (shardAt exShards 0).length ∧
      (1 : ℕ) < exShards.length ∧ (0 : ℕ) < (shardAt exShards 1).length ∧
      ((0 : ℕ) < 1 ∨ ((0 : ℕ) = 1 ∧ (0 : ℕ) < 0))) ∧
    (slot_size (entryAt exShards 0 0) = slot_size_claim (entryAt exShards 0 0) ∧
    DTAR_offset exShards 0 1 =
      DTAR_offset exShards 0 0 + slot_size (entryAt exShards 0 0) ∧
    DTAR_offset exShards 0 0 ≤ DTAR_offset exShards 0 1 ∧
    DTAR_offset exShards 0 0 = rank_base exShards 0 ∧
    rank_base exShards 1 = rank_base exShards 0 + local_total (shardAt exShards 0) ∧
    DTAR_offset exShards 0 0 + slot_size (entryAt exShards 0 0) ≤
      DTAR_offset exShards 1 0 ∧
    archive_size exShards = rank_base exShards exShards.length) :=
  ⟨⟨by decide, by decide, by decide, by decide, by decide⟩,
    C3_layout_plan exShards 0 0 1 0 (by decide) (by decide) (by decide)
      (by decide) (by decide)⟩

/-- A one-rank layout holding a 9-byte regular file and a directory,
used as a concrete witness input. -/
def exShardsDir : List (List Entry) :=
  [[⟨mfu_filetype.file, 9, 3⟩, ⟨mfu_filetype.dir, 0, 7⟩]]

/-- C4: for a regular file of size `S`, task enumeration enqueues
exactly `max 1 (ceil (S / chunk_size))` work items, with chunk indices
`0` through that count minus one, each carrying the file's size and
the archive offset of the file's first data byte
(`DTAR_offsets[idx] + DTAR_header_sizes[idx]`); a directory or symlink
entry contributes no work items. -/
theorem C4_enqueue_copy (cs : ℕ) (shards : List (List Entry)) (r i i2 : ℕ)
    (hcs : 0 < cs) (hr : r < shards.length)
    (hi : i < (shardAt shards r).length)
    (hf : (entryAt shards r i).ftype = mfu_filetype.file)
    (hi2 : i2 < (shardAt shards r).length)
    (hd : (entryAt shards r i2).ftype = mfu_filetype.dir ∨
      (entryAt shards r i2).ftype = mfu_filetype.link) :
    DTAR_enqueue_entry cs (entryAt shards r i)
        (DTAR_offset shards r i + (entryAt shards r i).hsize) =
      (List.range (max 1 (((entryAt shards r i).size + cs - 1) / cs))).map
        (fun c => ⟨(entryAt shards r i).size, c,
          DTAR_offset shards r i + (entryAt shards r i).hsize⟩) ∧
    DTAR_enqueue_rank cs shards r =
      (List.range (shardAt shards r).length).flatMap
        (fun k => DTAR_enqueue_entry cs (entryAt shards r k)
          (DTAR_offset shards r k + (entryAt shards r k).hsize)) ∧
    DTAR_enqueue_entry cs (entryAt shards r i2)
        (DTAR_offset shards r i2 + (entryAt shards r i2).hsize) = [] := by
  refine ⟨?_, rfl, ?_⟩
  · rw [DTAR_enqueue_entry_eq_range _ _ _ hf, chunks_for_eq_max _ _ hcs]
  · rcases hd with h | h <;> simp [DTAR_enqueue_entry, h]

/-- Witness for C4: the file entry and the directory entry of
`exShardsDir` with `chunk_size = 4`. -/
theorem C4_witness :
    ((0 : ℕ) < 4 ∧ (0 : ℕ) < exShardsDir.length ∧
      (0 : ℕ) < (shardAt exShardsDir 0).length ∧
      (entryAt exShardsDir 0 0).ftype = mfu_filetype.file ∧
      (1 : ℕ) < (shardAt exShardsDir 0).length ∧
      ((entryAt exShardsDir 0 1).ftype = mfu_filetype.dir ∨
        (entryAt exShardsDir 0 1).ftype = mfu_filetype.link)) ∧
    (DTAR_enqueue_entry 4 (entryAt exShardsDir 0 0)
        (DTAR_offset exShardsDir 0 0 + (entryAt exShardsDir 0 0).hsize) =
      (List.range (max 1 (((entryAt exShardsDir 0 0).size + 4 - 1) / 4))).map
        (fun c => ⟨(entryAt exShardsDir 0 0).size, c,
          DTAR_offset exShardsDir 0 0 + (entryAt exShardsDir 0 0).hsize⟩) ∧
    DTAR_enqueue_rank 4 exShardsDir 0 =
      (List.range (shardAt exShardsDir 0).length).flatMap
        (fun k => DTAR_enqueue_entry 4 (entryAt exShardsDir 0 k)
          (DTAR_offset exShardsDir 0 k + (entryAt exShardsDir 0 k).hsize)) ∧
    DTAR_enqueue_entry 4 (entryAt exShardsDir 0 1)
        (DTAR_offset exShardsDir 0 1 + (entryAt exShardsDir 0 1).hsize) = []) :=
  ⟨⟨by decide, by decide, by decide, by decide, by decide, by decide⟩,
    C4_enqueue_copy 4 exShardsDir 0 0 1 (by decide) (by decide) (by decide)
      (by decide) (by decide) (by decide)⟩

/-- C5: processing the work items of a regular file of size `S` writes
exactly `ceil(S/512)*512` bytes into the file's data slot: the payload
plus padding of all chunks sum to the padded file size; only the last
enqueued chunk pads, with `(512 - S % 512) % 512` zero bytes; the last
chunk's payload ends exactly at the file's final data byte, so its
padding is written immediately after it; and the padding bytes are all
zero. -/
theorem C5_padding (cs : ℕ) (e : Entry) (d c : ℕ) (hcs : 0 < cs)
    (hf : e.ftype = mfu_filetype.file) (hsU : e.size < U64)
    (hc : c < chunks_for cs e.size) :
    ((DTAR_enqueue_entry cs e d).map
        (fun w => payload_len cs w.file_size w.chunk_index +
          pad_len cs w.file_size w.chunk_index)).sum = fsize_padded e.size ∧
    fsize_padded e.size = (e.size + 511) / 512 * 512 ∧
    pad_len cs e.size c =
      (if c = chunks_for cs e.size - 1 then (512 - e.size % 512) % 512 else 0) ∧
    (chunks_for cs e.size - 1) * cs +
      payload_len cs e.size (chunks_for cs e.size - 1) = e.size ∧
    (pad_bytes cs e.size c).all (· == 0) = true := by
  refine ⟨?_, fsize_padded_eq_ceil _, pad_len_eq cs e.size c hcs hsU hc,
    last_payload_end cs e.size hcs, ?_⟩
  · rw [DTAR_enqueue_entry_eq_range cs e d hf, List.map_map]
    have hcomp : ((fun w : WorkItem => payload_len cs w.file_size w.chunk_index +
        pad_len cs w.file_size w.chunk_index) ∘
          fun c => (⟨e.size, c, d⟩ : WorkItem)) =
        fun c => payload_len cs e.size c + pad_len cs e.size c := rfl
    rw [hcomp, list_range_map_sum, Finset.sum_add_distrib,
      sum_payload_len_all cs e.size hcs, sum_pad_len_all cs e.size hcs hsU,
      fsize_padded_eq_add_pad]
  · simp [pad_bytes]

/-- Witness for C5: the 9-byte file of `exShards` with `chunk_size = 4`
(three chunks; the witness instantiates the last chunk, index 2). -/
theorem C5_witness :
    ((0 : ℕ) < 4 ∧
      (⟨mfu_filetype.file, 9, 3⟩ : Entry).ftype = mfu_filetype.file ∧
      (⟨mfu_filetype.file, 9, 3⟩ : Entry).size < U64 ∧
      (2 : ℕ) < chunks_for 4 (⟨mfu_filetype.file, 9, 3⟩ : Entry).size) ∧
    (((DTAR_enqueue_entry 4 ⟨mfu_filetype.file, 9, 3⟩ 3).map
        (fun w => payload_len 4 w.file_size w.chunk_index +
          pad_len 4 w.file_size w.chunk_index)).sum =
      fsize_padded (⟨mfu_filetype.file, 9, 3⟩ : Entry).size ∧
    fsize_padded (⟨mfu_filetype.file, 9, 3⟩ : Entry).size =
      ((⟨mfu_filetype.file, 9, 3⟩ : Entry).size + 511) / 512 * 512 ∧
    pad_len 4 (⟨mfu_filetype.file, 9, 3⟩ : Entry).size 2 =
      (if (2 : ℕ) = chunks_for 4 (⟨mfu_filetype.file, 9, 3⟩ : Entry).size - 1 then
        (512 - (⟨mfu_filetype.file, 9, 3⟩ : Entry).size % 512) % 512 else 0) ∧
    (chunks_for 4 (⟨mfu_filetype.file, 9, 3⟩ : Entry).size - 1) * 4 +
      payload_len 4 (⟨mfu_filetype.file, 9, 3⟩ : Entry).size
        (chunks_for 4 (⟨mfu_filetype.file, 9, 3⟩ : Entry).size - 1) =
      (⟨mfu_filetype.file, 9, 3⟩ : Entry).size ∧
    (pad_bytes 4 (⟨mfu_filetype.file, 9, 3⟩ : Entry).size 2).all (· == 0) = true) :=
  ⟨⟨by decide, by decide, by decide, by decide⟩,
    C5_padding 4 ⟨mfu_filetype.file, 9, 3⟩ 3 2 (by decide) (by decide)
      (by decide) (by decide)⟩

/-- C10: for a zero-size regular file exactly one work item is
enqueued (chunk index 0); `DTAR_perform_copy` writes no payload bytes
and no padding bytes for it, because `num_chunks - 1` wraps around to
`2^64 - 1` in `uint64_t` so chunk 0 never matches the last-chunk test;
this coincides with the required padding `(512 - 0 % 512) % 512 = 0`. -/
theorem C10_zero_size (cs d : ℕ) (e : Entry) (hcs : 0 < cs)
    (hf : e.ftype = mfu_filetype.file) (h0 : e.size = 0) :
    DTAR_enqueue_entry cs e d = [⟨0, 0, d⟩] ∧
    last_chunk cs 0 = 2 ^ 64 - 1 ∧
    (0 : ℕ) ≠ last_chunk cs 0 ∧
    payload_len cs 0 0 = 0 ∧
    pad_len cs 0 0 = 0 ∧
    pad_len cs 0 0 = (512 - 0 % 512) % 512 ∧
    written_bytes cs d 0 0 = ∅ := by
  have hpad : pad_len cs 0 0 = 0 :=
    pad_len_zero_size cs 0 (by simp [chunks_for, num_chunks])
  have hpl : payload_len cs 0 0 = 0 := by
    simp [payload_len]
  refine ⟨?_, ?_, ?_, hpl, hpad, ?_, ?_⟩
  · simp [DTAR_enqueue_entry, hf, h0, num_chunks]
  · rw [last_chunk_zero]
    norm_num [U64]
  · rw [last_chunk_zero]
    norm_num [U64]
  · rw [hpad]
  · rw [written_bytes_eq_Ico, hpl, hpad]
    simp

/-- Witness for C10: a zero-byte file entry with `chunk_size = 512` and
data offset 100. -/
theorem C10_witness :
    ((0 : ℕ) < 512 ∧
      (⟨mfu_filetype.file, 0, 9⟩ : Entry).ftype = mfu_filetype.file ∧
      (⟨mfu_filetype.file, 0, 9⟩ : Entry).size = 0) ∧
    (DTAR_enqueue_entry 512 ⟨mfu_filetype.file, 0, 9⟩ 100 = [⟨0, 0, 100⟩] ∧
    last_chunk 512 0 = 2 ^ 64 - 1 ∧
    (0 : ℕ) ≠ last_chunk 512 0 ∧
    payload_len 512 0 0 = 0 ∧
    pad_len 512 0 0 = 0 ∧
    pad_len 512 0 0 = (512 - 0 % 512) % 512 ∧
    written_bytes 512 100 0 0 = ∅) :=
  ⟨⟨by decide, by decide, by decide⟩,
    C10_zero_size 512 100 ⟨mfu_filetype.file, 0, 9⟩ (by decide) (by decide)
      (by decide)⟩

/- ### Extractor range partition lemmas -/

theorem entries_remainder_eq_mod (e r : ℕ) : entries_remainder e r = e % r := by
  have hdm := Nat.div_add_mod' e r
  simp only [entries_remainder, entries_per_rank]
  omega

theorem entry_start_eq_sum (e r t : ℕ) :
    entry_start e r t = ∑ k ∈ Finset.range t, entry_count e r k := by
  induction t with
  | zero =>
    rw [Finset.range_zero, Finset.sum_empty, entry_start]
    split_ifs with h
    · simp
    · have h0 : entries_remainder e r = 0 := by omega
      simp [h0]
  | succ t ih =>
    rw [Finset.sum_range_succ, ← ih]
    simp only [entry_start, entry_count]
    rcases Nat.lt_trichotomy (t + 1) (entries_remainder e r) with h | h | h
    · rw [if_pos h, if_pos (by omega), if_pos (by omega), Nat.succ_mul]
    · have h0 : t + 1 - entries_remainder e r = 0 := by omega
      rw [if_neg (by omega), if_pos (by omega), if_pos (by omega), h0, ← h,
        Nat.succ_mul]
      omega
    · rcases Nat.lt_or_ge t (entries_remainder e r) with ht | ht
      · omega
      · have h1 : t + 1 - entries_remainder e r =
          (t - entries_remainder e r) + 1 := by omega
        rw [if_neg (by omega), if_neg (by omega), if_neg (by omega), h1,
          Nat.succ_mul]
        omega

theorem sum_entry_count (e r : ℕ) (hr : 0 < r) :
    ∑ k ∈ Finset.range r, entry_count e r k = e := by
  rw [← entry_start_eq_sum]
  have hm := entries_remainder_eq_mod e r
  have hlt : e % r < r := Nat.mod_lt e hr
  have hdm := Nat.div_add_mod e r
  rw [entry_start, if_neg (by omega), hm]
  simp only [entries_per_rank]
  rw [Nat.mul_succ, Nat.sub_mul]
  have hle : e % r * (e / r) ≤ r * (e / r) :=
    Nat.mul_le_mul_right (e / r) (Nat.le_of_lt hlt)
  omega

/-- C7: the extractor's range partition over `E` entries and `R` ranks
with `q = E / R` and `rem = E % R` assigns ranks below `rem` exactly
`q + 1` entries and the other ranks exactly `q` entries; each rank's
start is the sum of the counts of all lower ranks (so the ranges are
contiguous); the counts sum to `E`; and the ranges of two distinct
ranks are disjoint (the earlier rank's range ends at or before the
later rank's start). -/
theorem C7_range_partition (e r rank rank2 : ℕ) (hr : 0 < r)
    (hrank : rank < r) (h12 : rank < rank2) :
    entry_count e r rank = (if rank < e % r then e / r + 1 else e / r) ∧
    entry_start e r rank = ∑ k ∈ Finset.range rank, entry_count e r k ∧
    ∑ k ∈ Finset.range r, entry_count e r k = e ∧
    entry_start e r rank + entry_count e r rank ≤ entry_start e r rank2 := by
  refine ⟨?_, entry_start_eq_sum e r rank, sum_entry_count e r hr, ?_⟩
  · rw [entry_count, entries_remainder_eq_mod]
    rfl
  · rw [entry_start_eq_sum, entry_start_eq_sum, ← Finset.sum_range_succ]
    exact Finset.sum_le_sum_of_subset
      (Finset.range_subset.mpr (by omega))

/-- Witness for C7: 7 entries over 3 ranks (counts 3, 2, 2), at ranks 1
and 2. -/
theorem C7_witness :
    ((0 : ℕ) < 3 ∧ (1 : ℕ) < 3 ∧ (1 : ℕ) < 2) ∧
    (entry_count 7 3 1 = (if (1 : ℕ) < 7 % 3 then 7 / 3 + 1 else 7 / 3) ∧
    entry_start 7 3 1 = ∑ k ∈ Finset.range 1, entry_count 7 3 k ∧
    ∑ k ∈ Finset.range 3, entry_count 7 3 k = 7 ∧
    entry_start 7 3 1 + entry_count 7 3 1 ≤ entry_start 7 3 2) :=
  ⟨⟨by decide, by decide, by decide⟩,
    C7_range_partition 7 3 1 2 (by decide) (by decide) (by decide)⟩

/- ### Index sidecar lemmas -/

theorem packBE_length (n v : ℕ) : (packBE n v).length = n := by
  induction n generalizing v with
  | zero => rfl
  | succ n ih => simp [packBE, ih]

theorem pack_offsets_length (l : List ℕ) :
    (pack_offsets l).length = 8 * l.length := by
  induction l with
  | nil => rfl
  | cons v l ih =>
    simp only [pack_offsets, List.flatMap_cons] at *
    simp [packBE_length, ih]
    omega

theorem unpackBE_packBE (n v : ℕ) : unpackBE (packBE n v) = v % 256 ^ n := by
  induction n generalizing v with
  | zero => simp [packBE, unpackBE, Nat.mod_one]
  | succ n ih =>
    rw [packBE, unpackBE, List.foldl_append]
    simp only [List.foldl_cons, List.foldl_nil]
    have h1 : (packBE n (v / 256)).foldl (fun a b => a * 256 + b) 0 =
        v / 256 % 256 ^ n := ih (v / 256)
    rw [h1]
    have h2 : v / 256 % 256 ^ n = v % (256 * 256 ^ n) / 256 :=
      (Nat.mod_mul_right_div_self v 256 (256 ^ n)).symm
    have h3 : v % 256 = v % (256 * 256 ^ n) % 256 :=
      (Nat.mod_mod_of_dvd v (Dvd.intro (256 ^ n) rfl)).symm
    have h4 : (256 : ℕ) ^ (n + 1) = 256 * 256 ^ n := by
      rw [pow_succ, Nat.mul_comm]
    rw [h2, h3, h4]
    exact Nat.div_add_mod' _ 256

theorem unpackBE_packBE_u64 (v : ℕ) (hv : v < U64) : unpackBE (packBE 8 v) = v := by
  rw [unpackBE_packBE]
  have h : (256 : ℕ) ^ 8 = U64 := by norm_num [U64]
  rw [h]
  exact Nat.mod_eq_of_lt hv

theorem unpack_uint64s_pack (l : List ℕ) (tail : List ℕ) (k : ℕ)
    (hv : ∀ v ∈ l, v < U64) :
    unpack_uint64s (l.length + k) (pack_offsets l ++ tail) =
      l ++ unpack_uint64s k tail := by
  induction l with
  | nil => simp [pack_offsets]
  | cons v l ih =>
    have hlen : (v :: l).length + k = (l.length + k) + 1 := by
      simp
      omega
    rw [hlen]
    simp only [pack_offsets, List.flatMap_cons] at *
    rw [List.append_assoc, unpack_uint64s,
      List.take_left' (packBE_length 8 v), List.drop_left' (packBE_length 8 v),
      unpackBE_packBE_u64 v (hv v (List.mem_cons_self v l)),
      ih (fun w hw => hv w (List.mem_cons_of_mem v hw))]
    rfl

theorem pwrite_at_end (file : List ℕ) (pos : ℕ) (data : List ℕ)
    (h : file.length = pos) :
    pwrite file pos data = file ++ data := by
  rw [pwrite, ← h, List.take_length]
  have h1 : file.length - file.length = 0 := by omega
  have h2 : file.drop (file.length + data.length) = [] :=
    List.drop_eq_nil_of_le (by omega)
  rw [h1, h2]
  simp

theorem apply_rank_writes_eq (offss : List (List ℕ)) :
    ∀ (file : List ℕ) (pos : ℕ), file.length = pos * 8 →
      apply_rank_writes file pos offss =
        file ++ (offss.map pack_offsets).flatten := by
  induction offss with
  | nil =>
    intro file pos _
    simp [apply_rank_writes]
  | cons l rest ih =>
    intro file pos h
    rw [apply_rank_writes, pwrite_at_end file (pos * 8) (pack_offsets l) h,
      ih (file ++ pack_offsets l) (pos + l.length) (by
        simp [pack_offsets_length, h]
        omega)]
    simp [List.append_assoc]

theorem write_entry_index_file_eq (offss : List (List ℕ)) :
    write_entry_index_file offss = (offss.map pack_offsets).flatten := by
  rw [write_entry_index_file, apply_rank_writes_eq offss [] 0 rfl]
  rfl

theorem write_entry_index_file_length (offss : List (List ℕ)) :
    (write_entry_index_file offss).length = 8 * (offss.map List.length).sum := by
  rw [write_entry_index_file_eq]
  induction offss with
  | nil => rfl
  | cons l rest ih =>
    simp only [List.map_cons, List.flatten_cons, List.length_append, ih,
      List.sum_cons, pack_offsets_length]
    omega

theorem unpack_write_entry_index (offss : List (List ℕ))
    (hv : ∀ l ∈ offss, ∀ v ∈ l, v < U64) :
    unpack_uint64s ((offss.map List.length).sum) (write_entry_index_file offss) =
      offss.flatten := by
  rw [write_entry_index_file_eq]
  induction offss with
  | nil => rfl
  | cons l rest ih =>
    simp only [List.map_cons, List.flatten_cons, List.sum_cons]
    rw [unpack_uint64s_pack l _ _ (hv l (List.mem_cons_self l rest)),
      ih (fun m hm v hvm => hv m (List.mem_cons_of_mem l hm) v hvm)]

/-- C6 (as stated) is false: `read_entry_index` does not reject an
index file whose size is not a multiple of 8.  A 9-byte index file of
zeros is accepted with `count = 9 / 8 = 1` and one decoded offset. -/
theorem C6_counterexample :
    ¬((List.replicate 9 0 : List ℕ).length % 8 = 0) ∧
      read_entry_index true true (List.replicate 9 0) = some (1, [0]) := by
  constructor
  · decide
  · decide

/-- C6 (amended): `read_entry_index` signals "no index" exactly when
rank 0's stat of `<archive>.idx` fails (or its open or read fails);
there is no size-divisibility-by-8 check: with stat and open
succeeding, a file of any size `s` is accepted with `count = s / 8`
and the trailing `s % 8` bytes silently ignored. -/
theorem C6_no_index_only_on_stat (o : Bool) (bytes : List ℕ) :
    read_entry_index false o bytes = none ∧
    read_entry_index true false bytes = none ∧
    read_entry_index true true bytes =
      some (bytes.length / 8, unpack_uint64s (bytes.length / 8) bytes) := by
  refine ⟨rfl, rfl, ?_⟩
  rw [read_entry_index, if_neg (by simp), if_neg (by simp),
    if_neg (Nat.not_lt.mpr (Nat.div_mul_le_self bytes.length 8))]

/-- C8: the index round-trip.  Writing the per-rank offset arrays with
`write_entry_index` and reading the resulting `<archive>.idx` back
with `read_entry_index` recovers the entries of all ranks concatenated
in rank order, bit for bit, with the returned count equal to the total
number of entries written; the index file is `8 * total` bytes long. -/
theorem C8_index_roundtrip (offss : List (List ℕ))
    (hv : ∀ l ∈ offss, ∀ v ∈ l, v < U64) :
    read_entry_index true true (write_entry_index_file offss) =
      some ((offss.map List.length).sum, offss.flatten) ∧
    (write_entry_index_file offss).length = 8 * (offss.map List.length).sum := by
  have hlen := write_entry_index_file_length offss
  refine ⟨?_, hlen⟩
  rw [read_entry_index, if_neg (by simp), if_neg (by simp),
    if_neg (Nat.not_lt.mpr (Nat.div_mul_le_self _ 8)), hlen,
    Nat.mul_div_cancel_left _ (by norm_num : (0 : ℕ) < 8),
    unpack_write_entry_index offss hv]

/-- Witness for C8: two ranks holding offsets `[0, 600]` and `[1234]`. -/
theorem C8_witness :
    (∀ l ∈ [[0, 600], [1234]], ∀ v ∈ l, v < U64) ∧
    (read_entry_index true true (write_entry_index_file [[0, 600], [1234]]) =
      some (([[0, 600], [1234]].map List.length).sum,
        ([[0, 600], [1234]] : List (List ℕ)).flatten) ∧
    (write_entry_index_file [[0, 600], [1234]]).length =
      8 * (([[0, 600], [1234]] : List (List ℕ)).map List.length).sum) :=
  ⟨by decide, C8_index_roundtrip [[0, 600], [1234]] (by decide)⟩

/- ### Operation encode/decode lemmas -/

theorem decReprAux_digits :
    ∀ fuel n, n ≤ fuel → ∀ b ∈ decReprAux fuel n, 48 ≤ b ∧ b ≤ 57 := by
  intro fuel
  induction fuel with
  | zero =>
    intro n hn b hb
    simp [decReprAux] at hb
  | succ fuel ih =>
    intro n hn b hb
    rw [decReprAux] at hb
    by_cases h0 : n = 0
    · simp [h0] at hb
    · rw [if_neg h0] at hb
      rcases List.mem_append.mp hb with h | h
      · have hdiv : n / 10 ≤ fuel := by
          have := Nat.div_lt_self (show 0 < n by omega) (by norm_num : (1:ℕ) < 10)
          omega
        exact ih (n / 10) hdiv b h
      · simp only [List.mem_singleton] at h
        subst h
        have hm : n % 10 < 10 := Nat.mod_lt n (by norm_num)
        omega

theorem decReprAux_foldl :
    ∀ fuel n acc, n ≤ fuel →
      (decReprAux fuel n).foldl (fun a b => a * 10 + (b - 48)) acc =
        acc * 10 ^ (decReprAux fuel n).length + n := by
  intro fuel
  induction fuel with
  | zero =>
    intro n acc hn
    have h0 : n = 0 := by omega
    subst h0
    simp [decReprAux]
  | succ fuel ih =>
    intro n acc hn
    by_cases h0 : n = 0
    · subst h0
      simp [decReprAux]
    · rw [decReprAux, if_neg h0, List.foldl_append, List.length_append]
      simp only [List.foldl_cons, List.foldl_nil, List.length_singleton]
      have hdiv : n / 10 ≤ fuel := by
        have := Nat.div_lt_self (show 0 < n by omega) (by norm_num : (1:ℕ) < 10)
        omega
      rw [ih (n / 10) acc hdiv, Nat.add_mul, pow_succ, ← Nat.mul_assoc]
      omega

theorem decRepr_ne_nil (n : ℕ) : decRepr n ≠ [] := by
  rw [decRepr]
  split_ifs with h
  · simp
  · cases n with
    | zero => exact absurd rfl h
    | succ m =>
      rw [decReprAux, if_neg h]
      simp

theorem decRepr_digits (n : ℕ) : ∀ b ∈ decRepr n, 48 ≤ b ∧ b ≤ 57 := by
  rw [decRepr]
  split_ifs with h
  · intro b hb
    simp only [List.mem_singleton] at hb
    subst hb
    omega
  · exact decReprAux_digits n n le_rfl

theorem decRepr_ne_colon (n : ℕ) : ∀ b ∈ decRepr n, b ≠ colonByte := by
  intro b hb
  have h := decRepr_digits n b hb
  simp only [colonByte]
  omega

theorem parseDec_decRepr (n : ℕ) : parseDec (decRepr n) = some n := by
  have hfold : (decRepr n).foldl (fun a b => a * 10 + (b - 48)) 0 = n := by
    rw [decRepr]
    split_ifs with h
    · subst h
      simp
    · have hf := decReprAux_foldl n n 0 le_rfl
      simpa using hf
  rw [parseDec]
  split_ifs with h
  · rw [hfold]
  · exfalso
    apply h
    refine ⟨decRepr_ne_nil n, ?_⟩
    rw [List.all_eq_true]
    intro b hb
    have hd := decRepr_digits n b hb
    simpa using hd

theorem takeWhile_until_colon (t r : List ℕ) (hd : ∀ b ∈ t, b ≠ colonByte) :
    (t ++ colonByte :: r).takeWhile (fun b => !(b == colonByte)) = t := by
  induction t with
  | nil => simp
  | cons a t ih =>
    have ha : a ≠ colonByte := hd a (List.mem_cons_self a t)
    simp only [List.cons_append, List.takeWhile_cons]
    simp [ha, ih (fun b hb => hd b (List.mem_cons_of_mem a hb))]

theorem dropWhile_until_colon (t r : List ℕ) (hd : ∀ b ∈ t, b ≠ colonByte) :
    (t ++ colonByte :: r).dropWhile (fun b => !(b == colonByte)) = colonByte :: r := by
  induction t with
  | nil => simp
  | cons a t ih =>
    have ha : a ≠ colonByte := hd a (List.mem_cons_self a t)
    simp only [List.cons_append, List.dropWhile_cons]
    simp [ha, ih (fun b hb => hd b (List.mem_cons_of_mem a hb))]

theorem strtok1_token (t r : List ℕ) (ht : t ≠ []) (hd : ∀ b ∈ t, b ≠ colonByte) :
    strtok1 (t ++ colonByte :: r) = (t, r) := by
  obtain ⟨a, t', rfl⟩ := List.exists_cons_of_ne_nil ht
  have ha : a ≠ colonByte := hd a (List.mem_cons_self a t')
  simp only [strtok1]
  have h1 : ((a :: t' ++ colonByte :: r).dropWhile (fun b => b == colonByte)) =
      a :: t' ++ colonByte :: r := by
    simp only [List.cons_append, List.dropWhile_cons]
    simp [ha]
  rw [h1, takeWhile_until_colon _ r hd, dropWhile_until_colon _ r hd]
  simp

/-- C9: work-item serialization round-trip.  For every operation whose
encoded colon-delimited string fits in a libcircle message,
`DTAR_decode_operation` applied to the output of
`DTAR_encode_operation` recovers exactly the original file size, chunk
index, offset, operation code, and operand — including when the
operand name contains colon bytes, because the decoder extracts the
operand positionally after the length token rather than by delimiter
scanning. -/
theorem C9_operation_roundtrip (fsize ci off : ℕ) (operand : List ℕ)
    (hz : ∀ b ∈ operand, b ≠ 0)
    (hlen : (DTAR_encode_operation COPY_DATA operand fsize ci off).length <
      CIRCLE_MAX_STRING_LEN) :
    DTAR_decode_operation (DTAR_encode_operation COPY_DATA operand fsize ci off) =
      some ⟨fsize, ci, off, COPY_DATA, operand⟩ := by
  simp only [DTAR_decode_operation, DTAR_encode_operation]
  rw [strtok1_token _ _ (decRepr_ne_nil fsize) (decRepr_ne_colon fsize)]
  dsimp only
  rw [strtok1_token _ _ (decRepr_ne_nil ci) (decRepr_ne_colon ci)]
  dsimp only
  rw [strtok1_token _ _ (decRepr_ne_nil off) (decRepr_ne_colon off)]
  dsimp only
  rw [strtok1_token _ _ (decRepr_ne_nil COPY_DATA) (decRepr_ne_colon COPY_DATA)]
  dsimp only
  rw [strtok1_token _ _ (decRepr_ne_nil operand.length) (decRepr_ne_colon operand.length)]
  dsimp only
  rw [parseDec_decRepr, parseDec_decRepr, parseDec_decRepr, parseDec_decRepr,
    parseDec_decRepr]
  dsimp only
  rw [List.take_length]

/-- Witness for C9: the operation `(COPY_DATA, "a:b", 29, 3, 700)`
whose operand contains a colon byte (58). -/
theorem C9_witness :
    ((∀ b ∈ [97, 58, 98], b ≠ 0) ∧
      (DTAR_encode_operation COPY_DATA [97, 58, 98] 29 3 700).length <
        CIRCLE_MAX_STRING_LEN) ∧
    DTAR_decode_operation (DTAR_encode_operation COPY_DATA [97, 58, 98] 29 3 700) =
      some ⟨29, 3, 700, COPY_DATA, [97, 58, 98]⟩ :=
  ⟨⟨by decide, by decide⟩,
    C9_operation_roundtrip 29 3 700 [97, 58, 98] (by decide) (by decide)⟩

/- ### Error propagation of the top-level operations -/

/-- C2 is violated by the code: `mfu_flist_archive_create_libcircle`
and `mfu_flist_archive_extract` return `MFU_SUCCESS` unconditionally —
their local `rc` is never reassigned and the results of their fallible
sub-phases are discarded — even though the sub-phases themselves (here
`extract_flist_offsets` and `write_entry_index`) do aggregate per-rank
failures with `mfu_alltrue` and report them.  Evaluated at failing
inputs: a create whose header probe, index write and header write all
failed still returns success, and an extract whose index read, scan,
metadata phase and extraction phase all failed still returns
success. -/
theorem C2_rc_discarded :
    archive_create_rc [false] false [false] = Status.MFU_SUCCESS ∧
    archive_extract_rc false false Status.MFU_FAILURE Status.MFU_FAILURE =
      Status.MFU_SUCCESS ∧
    extract_flist_offsets_rc [false, true] = Status.MFU_FAILURE ∧
    write_entry_index_rc [true, false] = false :=
  ⟨rfl, rfl, rfl, rfl⟩

end MfuArchive
